import Mathlib

/-!
Verification of the baja static-site compiler's content pipeline.

The development shallowly embeds the Go sources of the repository:
the node package (Node, NewNode, Parse, FindTheme, Permalink, Compile)
and the legacy root package (its Compile and the directory-walk visitor).
Strings are modelled as lists of characters (`Str`); external
collaborators (the filesystem, the TOML decoder, the markdown converter,
the template engine, the clock) are modelled as explicit function-valued
environments, so every operation of the pipeline is a pure, executable
Lean function of its inputs and that environment.
-/

namespace Baja

/-- Go strings are modelled as lists of characters. -/
abbrev Str := List Char

/-- Embedding of Go strings.Split(s, "+++"): the scanner walks the string
left to right and cuts at each leftmost non-overlapping occurrence of the
three-character delimiter, exactly as Go's Index-based loop does.
The result always has one more element than the number of occurrences. -/
def splitPlus : Str → List Str
  | [] => [[]]
  | '+' :: '+' :: '+' :: rest => [] :: splitPlus rest
  | c :: rest =>
    match splitPlus rest with
    | [] => [[c]]
    | h :: t => (c :: h) :: t

/-- Embedding of Go strings.Split(s, "/") (single-character separator). -/
def splitSlash : Str → List Str
  | [] => [[]]
  | '/' :: rest => [] :: splitSlash rest
  | c :: rest =>
    match splitSlash rest with
    | [] => [[c]]
    | h :: t => (c :: h) :: t

/-- Embedding of Go strings.Join(elems, sep). -/
def joinWith (sep : Str) : List Str → Str
  | [] => []
  | [a] => a
  | a :: rest => a ++ sep ++ joinWith sep rest

/-- Embedding of Go strings.LastIndex(s, "."): the index of the last dot,
or none when the string has no dot (Go returns -1 there). -/
def lastDotIndex : Str → Option Nat
  | [] => none
  | c :: rest =>
    match lastDotIndex rest with
    | some i => some (i + 1)
    | none => if c = '.' then some 0 else none

/-- Decidable scan for two consecutive slashes in a string. -/
def hasDoubleSlash : Str → Bool
  | [] => false
  | [_] => false
  | c :: d :: rest => (c == '/' && d == '/') || hasDoubleSlash (d :: rest)

/-- Opaque stand-in for Go time.Time; the zero value is 0 and the
formatting function lives in the environment. -/
abbrev GoTime := Nat

/-- Field-for-field embedding of the node package's NodeMeta struct. -/
structure NodeMeta where
  title : Str
  draft : Bool
  date : GoTime
  dateFormatted : Str
  tags : List Str
  category : Str
  type : Str
  theme : Str
deriving Repr, DecidableEq

/-- Go zero value of NodeMeta, as allocated by &NodeMeta{}. -/
def zeroMeta : NodeMeta :=
  { title := [], draft := false, date := 0, dateFormatted := [], tags := [],
    category := [], type := [], theme := [] }

/-- Field-for-field embedding of the node package's Node struct.
Meta is an option because the Go field is a pointer that starts nil. -/
structure Node where
  meta : Option NodeMeta
  body : Str
  raw : Str
  path : Str
  baseDirectory : Str
  name : Str
  templatePaths : List Str
deriving Repr, DecidableEq

/-- The map the node package passes to the template engine:
data() returns Meta, the markdown-converted Body and the Permalink. -/
structure RenderData where
  meta : Option NodeMeta
  body : Str
  permalink : Str
deriving Repr, DecidableEq

/-- The external collaborators of the pipeline, modelled as functions:
readFile is ioutil.ReadFile (none = error), tomlDecode is toml.Decode
into a NodeMeta (its error return is discarded by the code), formatDate
is time.Time.Format "2006 Jan 02", stat says whether os.Stat succeeds,
themeNodePath is theme.NodePath, markdown is blackfriday.Run,
parseTemplates says whether template.ParseFiles succeeds on a path list,
execute is template.Execute on a data payload (none = execution error)
keyed by the parsed path list, and create says whether os.Create
succeeds. -/
structure Env where
  readFile : Str → Option Str
  tomlDecode : Str → NodeMeta → NodeMeta
  formatDate : GoTime → Str
  stat : Str → Bool
  themeNodePath : Str → Str
  markdown : Str → Str
  parseTemplates : List Str → Bool
  execute : List Str → RenderData → Option Str
  create : Str → Bool

/-- Embedding of node.Parse (package node). A .error result models a
process-terminating log.Fatal; a .ok result is the node after the call.
An unreadable file is logged and leaves the node untouched. The TOML
decode error is discarded by the source, so tomlDecode is total. -/
def Node.Parse (env : Env) (n : Node) : Except Unit Node :=
  match env.readFile n.path with
  | none => .ok n
  | some content =>
    let part := splitPlus content
    if part.length < 3 then .error ()
    else
      let m := env.tomlDecode (part.getD 1 []) zeroMeta
      let m := { m with dateFormatted := env.formatDate m.date,
                        category := n.baseDirectory }
      .ok { n with meta := some m, body := part.getD 2 [] }

/-- Simple environment used to instantiate the theorems on concrete
inputs: file holds the single readable file's content and dec the
TOML decoder's behaviour. -/
def mkEnv (file : Option Str) (dec : Str → NodeMeta → NodeMeta) : Env :=
  { readFile := fun _ => file, tomlDecode := dec,
    formatDate := fun _ => "2006 Jan 02".data, stat := fun _ => false,
    themeNodePath := fun s => s, markdown := fun s => s,
    parseTemplates := fun _ => true, execute := fun _ _ => none,
    create := fun _ => true }

/-- Freshly constructed document for the blog post content/blog/post.md,
as NewNode builds it before Parse runs. -/
def postNode : Node :=
  { meta := none, body := [], raw := [], path := "content/blog/post.md".data,
    baseDirectory := "blog".data, name := "post".data, templatePaths := [] }

/-- Environment whose TOML decoder declares a front-matter category. -/
def envWithCategory : Env :=
  mkEnv (some "+++x+++b".data)
    (fun _ m => { m with category := "fromtoml".data })

/-- The node Parse produces under envWithCategory. -/
def parsedWithCategory : Node :=
  { postNode with
    meta := some { zeroMeta with
      dateFormatted := "2006 Jan 02".data
      category := "blog".data }
    body := "b".data }

/-- Environment whose template engine always renders the given text. -/
def mkExecEnv (rendered : Str) : Env :=
  { mkEnv none (fun _ m => m) with execute := fun _ _ => some rendered }

/-- Second document in the blog directory, distinct from postNode only
in its name. -/
def helloNode : Node :=
  { postNode with
    path := "content/blog/hello.md".data
    name := "hello".data }

/-- The three-character front-matter delimiter of the source format. -/
def plusDelim : Str := ['+', '+', '+']

/-- Backtracking step of Go path.Clean on a ".." element: starting from
position w it walks left while w > dotdot and the buffer byte at w is
not a separator (the buffer keeps its old bytes past the write cursor,
so lookups read the untruncated list). -/
def cleanBack (out : Str) (dotdot : Nat) : Nat → Nat
  | 0 => 0
  | w + 1 =>
    if dotdot < w + 1 ∧ ¬ out.getD (w + 1) ' ' = '/' then cleanBack out dotdot w
    else w + 1

/-- Main loop of Go path.Clean, translated case for case; out plays the
lazybuf (its length is the write cursor w) and dotdot marks the end of
the leading dot-dot section. The fuel only bounds the iteration count:
each Go iteration consumes at least one input byte, so an initial fuel
of the input length is enough, and the invariants proved below hold for
every fuel. -/
def cleanLoop (rooted : Bool) : Nat → Str → Str → Nat → Str
  | 0, _, out, _ => out
  | _ + 1, [], out, _ => out
  | fuel + 1, c :: rest, out, dotdot =>
    if c = '/' then cleanLoop rooted fuel rest out dotdot
    else if c = '.' ∧ (rest = [] ∨ rest.headD ' ' = '/') then
      cleanLoop rooted fuel rest out dotdot
    else if c = '.' ∧ rest.headD ' ' = '.' ∧
        (rest.tail = [] ∨ rest.tail.headD ' ' = '/') then
      if dotdot < out.length then
        cleanLoop rooted fuel rest.tail
          (out.take (cleanBack out dotdot (out.length - 1))) dotdot
      else if rooted = false then
        let out2 := (if 0 < out.length then out ++ ['/'] else out) ++ ['.', '.']
        cleanLoop rooted fuel rest.tail out2 out2.length
      else cleanLoop rooted fuel rest.tail out dotdot
    else
      let out2 := (if (rooted = true ∧ ¬ out.length = 1) ∨
          (rooted = false ∧ ¬ out.length = 0) then out ++ ['/'] else out) ++
        (c :: rest).takeWhile (fun ch => ch != '/')
      cleanLoop rooted fuel ((c :: rest).dropWhile (fun ch => ch != '/')) out2
        dotdot

/-- Embedding of Go path.Clean, which filepath.Clean equals on unix:
empty input becomes ".", a rooted path starts the buffer with the
separator (cursor and dotdot at 1), and an empty buffer at the end
becomes ".". -/
def pathClean (p : Str) : Str :=
  if p = [] then ['.']
  else if p.headD ' ' = '/' then
    let out := cleanLoop true p.length p.tail ['/'] 1
    if out.length = 0 then ['.'] else out
  else
    let out := cleanLoop false p.length p [] 0
    if out.length = 0 then ['.'] else out

/-- Embedding of Go filepath.Base on unix: empty input gives ".",
trailing separators are stripped, everything before the final separator
is dropped, and an input of only separators gives "/". -/
def filepathBase (p : Str) : Str :=
  if p = [] then ['.']
  else
    let p1 := (p.reverse.dropWhile (fun c => c == '/')).reverse
    let p2 := (p1.reverse.takeWhile (fun c => c != '/')).reverse
    if p2 = [] then ['/'] else p2

/-- Embedding of Go filepath.Dir on unix: the input up to and including
its final separator, cleaned. -/
def filepathDir (p : Str) : Str :=
  pathClean ((p.reverse.dropWhile (fun c => c != '/')).reverse)

/-- Embedding of node.NewNode's field construction: the base directory
joins all but the first component of the cleaned directory of the path
(dropping the leading content segment) and the name is the base
filename truncated at its last dot. When the filename has no dot, Go
slices filename[0:-1], which panics: modelled as none. The Parse and
FindTheme calls NewNode makes afterwards are modelled separately and
touch neither BaseDirectory nor Name. -/
def NewNode (path : Str) : Option Node :=
  let baseDirectory := joinWith ['/'] (splitSlash (filepathDir path)).tail
  let filename := filepathBase path
  match lastDotIndex filename with
  | none => none
  | some dotPosition =>
    some { meta := none, body := [], raw := [], path := path,
           baseDirectory := baseDirectory, name := filename.take dotPosition,
           templatePaths := [] }

/-- Embedding of node.Permalink (package node). -/
def Node.Permalink (n : Node) : Str :=
  if n.baseDirectory = [] then '/' :: (filepathBase n.name ++ ['/'])
  else '/' :: (n.baseDirectory ++ ('/' :: (filepathBase n.name ++ ['/'])))

/-- Candidate subtree template at a cascade level of FindTheme. -/
def nodeHtmlAt (lookupPath : Str) : Str := lookupPath ++ "/node.html".data

/-- Candidate per-document template at a cascade level of FindTheme. -/
def nameHtmlAt (lookupPath name : Str) : Str :=
  lookupPath ++ ('/' :: (name ++ ".html".data))

/-- Both conditional appends of one FindTheme loop iteration: each of the
two candidate files is kept exactly when os.Stat finds it, a missing
file contributing nothing (and no error). -/
def levelTemplates (env : Env) (name lookupPath : Str) : List Str :=
  (if env.stat (nodeHtmlAt lookupPath) then [nodeHtmlAt lookupPath]
   else []) ++
  (if env.stat (nameHtmlAt lookupPath name) then [nameHtmlAt lookupPath name]
   else [])

/-- FindTheme's loop over the path components: at each component the two
stat probes run against the current lookup path, which is then extended
by that component. -/
def findThemeLoop (env : Env) (name : Str) : List Str → Str → List Str
  | [], _ => []
  | p :: rest, lookupPath =>
    levelTemplates env name lookupPath ++
      findThemeLoop env name rest (lookupPath ++ ('/' :: p))

/-- Dereference of n.Meta.Theme in FindTheme; the Go code runs after
Parse set Meta, a nil Meta would panic there. -/
def Node.metaTheme (n : Node) : Str :=
  match n.meta with
  | some m => m.theme
  | none => []

/-- Embedding of node.FindTheme (package node): the default layout of
the configured theme first, then the cascade over the components of the
base directory, then the per-document override when Meta.Theme is
non-empty. cTheme is the site configuration's theme name. -/
def Node.FindTheme (env : Env) (cTheme : Str) (n : Node) : Node :=
  let start := "themes/".data ++ cTheme
  let paths := (start ++ "/layout/default.html".data) ::
    findThemeLoop env n.name (splitSlash n.baseDirectory) start
  let paths := if n.metaTheme = [] then paths
    else paths ++ [env.themeNodePath n.metaTheme]
  { n with templatePaths := paths }

/-- Cumulative lookup path after i components, for the declarative
statement of the cascade. -/
def extendPath (base : Str) (comps : List Str) : Str :=
  comps.foldl (fun acc p => acc ++ ('/' :: p)) base

/-- Render data built by node.data(): Meta, the markdown-converted body
(unsanitized) and the permalink. -/
def Node.renderData (env : Env) (n : Node) : RenderData :=
  { meta := n.meta, body := env.markdown n.body, permalink := n.Permalink }

/-- Output file of node.Compile as a function of the node's fields. -/
def Node.outputPath (n : Node) : Str :=
  "public/".data ++ n.baseDirectory ++ ('/' :: n.name) ++ "/index.html".data

/-- Embedding of node.Compile (package node). The .error result models a
process-terminating log.Panic; .ok carries the written file (path and
rendered text), or none when os.Create failed, in which case the error
was only logged and the buffered writes are dropped at Flush. MkdirAll
is elided: it only prepares directories for the create. -/
def Node.Compile (env : Env) (n : Node) : Except Unit (Option (Str × Str)) :=
  let directory := "public/".data ++ n.baseDirectory ++ ('/' :: n.name)
  let created := env.create (directory ++ "/index.html".data)
  if env.parseTemplates n.templatePaths then
    match env.execute n.templatePaths (n.renderData env) with
    | some rendered =>
      .ok (if created then some (directory ++ "/index.html".data, rendered)
           else none)
    | none => .error ()
  else .error ()

/-- Permalink of the legacy root package (node.go): no leading or
trailing slash is added there. -/
def Node.PermalinkLegacy (n : Node) : Str :=
  n.baseDirectory ++ ('/' :: filepathBase n.name)

/-- Render data of the legacy root package's data(). -/
def Node.renderDataLegacy (env : Env) (n : Node) : RenderData :=
  { meta := n.meta, body := env.markdown n.body,
    permalink := n.PermalinkLegacy }

/-- Fixed template list the legacy Compile always parses. -/
def legacyTemplatePaths : List Str :=
  ["themes/baja/layout/default.html".data, "themes/baja/node.html".data]

/-- Embedding of the legacy baja.Compile (node.go), kept to its control
flow: template parse failure is log.Panic (.error), template execution
failure is only log.Println (.ok false: the walk continues) and success
is .ok true. File creation is elided as before. -/
def Node.CompileLegacy (env : Env) (n : Node) : Except Unit Bool :=
  if env.parseTemplates legacyTemplatePaths then
    match env.execute legacyTemplatePaths (n.renderDataLegacy env) with
    | some _ => .ok true
    | none => .ok false
  else .error ()

/-- The document NewNode builds from content/.gitignore: the filename's
only dot is its first character, so the truncated name is empty. -/
def gitignoreNode : Node :=
  { meta := none, body := [], raw := [], path := "content/.gitignore".data,
    baseDirectory := [], name := [], templatePaths := [] }

/-- Invariant of the Clean loop state (rooted flag, output buffer,
dot-dot watermark): the buffer has no consecutive separators, the
watermark is within the buffer, a rooted buffer starts with the
separator and keeps its watermark at 1 while an unrooted one never
starts with the separator, the buffer ends in a separator only when it
is exactly the rooted "/", and a positive watermark of an unrooted
buffer marks a dot-dot prefix (so the buffer up to it ends in a dot). -/
structure CleanInv (rooted : Bool) (out : Str) (dotdot : Nat) : Prop where
  nds : hasDoubleSlash out = false
  dle : dotdot ≤ out.length
  hd : if rooted then out.headD ' ' = '/' ∧ dotdot = 1 ∧ 1 ≤ out.length
       else out = [] ∨ out.headD ' ' ≠ '/'
  lst : out.getLast? = some '/' → rooted = true ∧ out = ['/']
  dd2 : rooted = false → 0 < dotdot →
        2 ≤ dotdot ∧ (out.take dotdot).getLast? = some '.'

/-- Site index NodeDB of node.go: a Go map from directory keys to node
lists, modelled as a function into an optional list. -/
def SiteIndex := Str → Option (List Node)

/-- Index with no entries, as NodeDB starts. -/
def emptyIndex : SiteIndex := fun _ => none

/-- Directory branch of the walk visitor in node.go, verbatim: when the
key is already present (if _, ok := NodeDB[path]; ok) the entry is reset
to an empty list, otherwise the map is left unchanged. -/
def visitDir (db : SiteIndex) (path : Str) : SiteIndex :=
  if (db path).isSome then fun q => if q = path then some [] else db q
  else db

theorem splitPlus_ne_nil : ∀ s, splitPlus s ≠ [] := by
  intro s
  induction s using splitPlus.induct with
  | case1 => simp [splitPlus]
  | case2 rest ih => simp [splitPlus]
  | case3 c rest hne hnil ih => exact absurd hnil ih
  | case4 c rest hne h t heq ih => simp [splitPlus, hne, heq]

theorem joinWith_cons (sep a : Str) (l : List Str) (hl : l ≠ []) :
    joinWith sep (a :: l) = a ++ sep ++ joinWith sep l := by
  cases l with
  | nil => exact absurd rfl hl
  | cons b t => rfl

/-- Rejoining the fields of the delimiter split with the delimiter gives
back the original content: the split loses nothing and the fields appear
in order, separated by the delimiter occurrences. -/
theorem splitPlus_join : ∀ s, joinWith plusDelim (splitPlus s) = s := by
  intro s
  induction s using splitPlus.induct with
  | case1 => rfl
  | case2 rest ih =>
    rw [splitPlus, joinWith_cons _ _ _ (splitPlus_ne_nil rest), ih]
    rfl
  | case3 c rest hne hnil ih => exact absurd hnil (splitPlus_ne_nil rest)
  | case4 c rest hne h t heq ih =>
    have hrw : splitPlus (c :: rest) = (c :: h) :: t := by
      simp [splitPlus, hne, heq]
    rw [hrw]
    rw [heq] at ih
    cases t with
    | nil =>
      simp only [joinWith] at ih ⊢
      rw [ih]
    | cons b t2 =>
      rw [joinWith_cons _ _ _ (by simp)] at ih ⊢
      simp only [List.cons_append, List.append_assoc] at ih ⊢
      rw [ih]

/-- C3: when the content of a readable source file splits into fewer than
three fields on the delimiter, i.e. has zero or one delimiter occurrence,
Parse terminates the process fatally (log.Fatal) and produces no document
with populated metadata or body. -/
theorem parse_fatal_of_few_parts (env : Env) (n : Node) (content : Str)
    (hread : env.readFile n.path = some content)
    (hlt : (splitPlus content).length < 3) :
    n.Parse env = Except.error () := by
  unfold Node.Parse
  rw [hread]
  simp [hlt]

/-- Witness for C3 at content with a single delimiter occurrence. -/
theorem parse_fatal_of_few_parts_witness :
    (splitPlus "title+++body".data).length < 3 ∧
      postNode.Parse (mkEnv (some "title+++body".data) (fun _ m => m)) =
        Except.error () := by
  refine ⟨by decide, ?_⟩
  exact parse_fatal_of_few_parts _ _ _ rfl (by decide)

/-- C2 (amended): Parse splits the content on the delimiter, ignores the
field before the first delimiter, TOML-decodes the field between the
first and second delimiter into the metadata (post-decode the date is
reformatted and the category overwritten), and sets the body to the THIRD
split field; the rejoined fields reproduce the content, so the text after
the second delimiter is the third field only when there are exactly two
delimiter occurrences, and in that case the body is that text verbatim. -/
theorem parse_fields (env : Env) (n : Node) (content a b : Str)
    (rest : List Str)
    (hread : env.readFile n.path = some content)
    (hsplit : splitPlus content = a :: b :: rest) (hne : rest ≠ []) :
    n.Parse env =
      Except.ok { n with
        meta := some { env.tomlDecode b zeroMeta with
          dateFormatted := env.formatDate (env.tomlDecode b zeroMeta).date,
          category := n.baseDirectory },
        body := rest.headD [] } ∧
    content = a ++ plusDelim ++ b ++ plusDelim ++ joinWith plusDelim rest ∧
    (rest.length = 1 → rest.headD [] = joinWith plusDelim rest) := by
  obtain ⟨r0, rtail, rfl⟩ : ∃ r0 rtail, rest = r0 :: rtail := by
    cases rest with
    | nil => exact absurd rfl hne
    | cons r0 rtail => exact ⟨r0, rtail, rfl⟩
  refine ⟨?_, ?_, ?_⟩
  · unfold Node.Parse
    rw [hread]
    dsimp only
    rw [hsplit]
    simp [List.getD]
  · have hj := splitPlus_join content
    rw [hsplit, joinWith_cons _ _ _ (by simp),
        joinWith_cons _ _ _ (by simp)] at hj
    simp only [List.append_assoc] at hj ⊢
    rw [hj]
  · intro hlen
    have : rtail = [] := by
      simpa using hlen
    subst this
    rfl

/-- Witness for C2's amended statement at a two-delimiter content. -/
theorem parse_fields_witness :
    splitPlus "raw+++title+++hello body".data =
      ["raw".data, "title".data, "hello body".data] ∧
    postNode.Parse (mkEnv (some "raw+++title+++hello body".data)
        (fun _ m => m)) =
      Except.ok { postNode with
        meta := some { zeroMeta with
          dateFormatted := "2006 Jan 02".data
          category := "blog".data },
        body := "hello body".data } ∧
    "raw+++title+++hello body".data =
      "raw".data ++ plusDelim ++ "title".data ++ plusDelim ++
        "hello body".data := by
  refine ⟨by decide, ?_, ?_⟩
  · exact (parse_fields (mkEnv (some "raw+++title+++hello body".data)
      (fun _ m => m)) postNode "raw+++title+++hello body".data "raw".data
      "title".data ["hello body".data] rfl (by decide) (by decide)).1
  · have h := (parse_fields (mkEnv (some "raw+++title+++hello body".data)
      (fun _ m => m)) postNode "raw+++title+++hello body".data "raw".data
      "title".data ["hello body".data] rfl (by decide) (by decide)).2.1
    simpa using h

/-- C2 (counterexample): on content with three delimiter occurrences the
body is only the third split field, not everything after the second
delimiter: for a+++b+++c+++d the code sets the body to c although the
text following the second delimiter is c+++d. -/
theorem parse_body_truncated_counterexample :
    "a+++b+++c+++d".data =
      "a".data ++ plusDelim ++ "b".data ++ plusDelim ++ "c+++d".data ∧
    postNode.Parse (mkEnv (some "a+++b+++c+++d".data) (fun _ m => m)) =
      Except.ok { postNode with
        meta := some { zeroMeta with
          dateFormatted := "2006 Jan 02".data
          category := "blog".data },
        body := "c".data } ∧
    "c".data ≠ "c+++d".data := by
  exact ⟨by decide, rfl, by decide⟩

/-- C6: whenever Parse returns normally on a readable file, the resulting
metadata is populated and its category equals the document's base
directory, whatever category the TOML decoder produced from the front
matter (the environment, hence the decoder, is arbitrary here). -/
theorem parse_category_overwritten (env : Env) (n n' : Node) (content : Str)
    (hread : env.readFile n.path = some content)
    (hok : n.Parse env = Except.ok n') :
    ∃ m, n'.meta = some m ∧ m.category = n.baseDirectory := by
  unfold Node.Parse at hok
  rw [hread] at hok
  by_cases hlt : (splitPlus content).length < 3
  · simp [hlt] at hok
  · simp only [hlt, if_false] at hok
    cases hok
    exact ⟨_, rfl, rfl⟩

/-- Witness for C6: the decoder writes a category of its own, yet the
parsed metadata carries the base directory. -/
theorem parse_category_overwritten_witness :
    postNode.Parse envWithCategory = Except.ok parsedWithCategory ∧
      ∃ m, parsedWithCategory.meta = some m ∧
        m.category = postNode.baseDirectory := by
  have hok : postNode.Parse envWithCategory = Except.ok parsedWithCategory :=
    rfl
  exact ⟨hok,
    parse_category_overwritten envWithCategory postNode parsedWithCategory _
      rfl hok⟩

/-- C9: when the source file is unreadable, Parse logs the error and
returns with the node exactly as it was: the process does not terminate
and no field (in particular Meta, still nil) is populated. -/
theorem parse_unreadable_leaves_node (env : Env) (n : Node)
    (hread : env.readFile n.path = none) :
    n.Parse env = Except.ok n := by
  unfold Node.Parse
  rw [hread]

/-- Witness for C9 on a concrete unreadable file. -/
theorem parse_unreadable_leaves_node_witness :
    (mkEnv none (fun _ m => m)).readFile postNode.path = none ∧
      postNode.Parse (mkEnv none (fun _ m => m)) = Except.ok postNode := by
  exact ⟨rfl, parse_unreadable_leaves_node _ _ rfl⟩

theorem lastDotIndex_eq_none : ∀ s : Str, lastDotIndex s = none ↔ '.' ∉ s := by
  intro s
  induction s with
  | nil => simp [lastDotIndex]
  | cons c rest ih =>
    rw [lastDotIndex]
    cases h : lastDotIndex rest with
    | some i =>
      have hm : '.' ∈ rest := by
        by_contra hn
        rw [ih.2 hn] at h
        exact Option.noConfusion h
      simp [hm]
    | none =>
      have hn : '.' ∉ rest := ih.1 h
      by_cases hc : c = '.'
      · subst hc; simp
      · simp [hc, hn, Ne.symm hc]

theorem lastDotIndex_decomp : ∀ (s : Str) (i : Nat),
    lastDotIndex s = some i →
      s.take i ++ ('.' :: s.drop (i + 1)) = s ∧ '.' ∉ s.drop (i + 1) := by
  intro s
  induction s with
  | nil => intro i h; exact Option.noConfusion h
  | cons c rest ih =>
    intro i h
    rw [lastDotIndex] at h
    cases hr : lastDotIndex rest with
    | some j =>
      rw [hr] at h
      cases h
      obtain ⟨hd, hnd⟩ := ih j hr
      constructor
      · rw [List.take_succ_cons, List.drop_succ_cons, List.cons_append, hd]
      · simpa [List.drop_succ_cons] using hnd
    | none =>
      rw [hr] at h
      by_cases hc : c = '.'
      · rw [if_pos hc] at h
        cases h
        subst hc
        refine ⟨by simp, ?_⟩
        simpa using (lastDotIndex_eq_none rest).1 hr
      · rw [if_neg hc] at h
        exact Option.noConfusion h

theorem append_middle_cancel (a m1 m2 s : Str)
    (h : a ++ m1 ++ s = a ++ m2 ++ s) : m1 = m2 := by
  rw [List.append_assoc, List.append_assoc] at h
  exact List.append_cancel_right (List.append_cancel_left h)

theorem extendPath_cons (base p : Str) (l : List Str) :
    extendPath base (p :: l) = extendPath (base ++ ('/' :: p)) l := rfl

/-- The FindTheme loop equals the level-indexed description: one cascade
level per path component, the cumulative lookup path for level i being
the base extended by the first i components. -/
theorem findThemeLoop_eq_levels (env : Env) (name : Str) :
    ∀ (comps : List Str) (base : Str),
      findThemeLoop env name comps base =
        (List.range comps.length).flatMap
          (fun i => levelTemplates env name (extendPath base (comps.take i))) := by
  intro comps
  induction comps with
  | nil => intro base; simp [findThemeLoop]
  | cons p rest ih =>
    intro base
    rw [findThemeLoop, ih (base ++ ('/' :: p)), List.length_cons,
        List.range_succ_eq_map, List.flatMap_cons, List.flatMap_map]
    have h0 : extendPath base (List.take 0 (p :: rest)) = base := rfl
    have hfun : (fun a => levelTemplates env name
        (extendPath base (List.take a.succ (p :: rest)))) =
        (fun i => levelTemplates env name
          (extendPath (base ++ ('/' :: p)) (List.take i rest))) := by
      funext a
      rfl
    rw [h0, hfun]

/-- C4: FindTheme appends, in directory-depth order over the components
of the base directory, every existing node.html and every existing
name.html at each cascade level; the cumulative lookup path starts at
themes/[default theme] and is extended one segment per iteration, and a
missing file at a level contributes nothing and raises no error. The
full template list is the default layout, then the cascade, then the
optional per-document override. -/
theorem findTheme_cascade (env : Env) (cTheme : Str) (n : Node) :
    (n.FindTheme env cTheme).templatePaths =
      ("themes/".data ++ cTheme ++ "/layout/default.html".data) ::
      ((List.range (splitSlash n.baseDirectory).length).flatMap
        (fun i => levelTemplates env n.name
          (extendPath ("themes/".data ++ cTheme)
            ((splitSlash n.baseDirectory).take i))) ++
       (if n.metaTheme = [] then []
        else [env.themeNodePath n.metaTheme])) := by
  unfold Node.FindTheme
  dsimp only
  rw [findThemeLoop_eq_levels]
  by_cases h : n.metaTheme = [] <;>
    simp [h, List.append_assoc]

/-- C5 (amended): in the node package's Compile, template-set parse
failure and template execution failure (after a successful parse) are
both process-fatal (log.Panic); the per-document, logged-and-continue
treatment of execution failure exists only in the legacy root package's
Compile, whose sole fatal condition is parse failure. -/
theorem compile_fatal_conditions (env : Env) (n : Node) :
    (n.Compile env = Except.error () ↔
      (env.parseTemplates n.templatePaths = false ∨
        (env.parseTemplates n.templatePaths = true ∧
          env.execute n.templatePaths (n.renderData env) = none))) ∧
    (n.CompileLegacy env = Except.error () ↔
      env.parseTemplates legacyTemplatePaths = false) := by
  constructor
  · unfold Node.Compile
    cases hp : env.parseTemplates n.templatePaths with
    | false => simp [hp]
    | true =>
      cases hx : env.execute n.templatePaths (n.renderData env) with
      | none => simp [hp, hx]
      | some r => simp [hp, hx]
  · unfold Node.CompileLegacy
    cases hp : env.parseTemplates legacyTemplatePaths with
    | false => simp [hp]
    | true =>
      cases hx : env.execute legacyTemplatePaths (n.renderDataLegacy env) with
      | none => simp [hp, hx]
      | some r => simp [hp, hx]

/-- C5 (counterexample): under an environment whose template set parses
but whose execution fails, the node package's Compile terminates the
process (log.Panic) instead of logging the render failure for this
document and letting compilation continue. -/
theorem compile_execute_failure_fatal :
    (mkEnv none (fun _ m => m)).parseTemplates postNode.templatePaths =
      true ∧
    (mkEnv none (fun _ m => m)).execute postNode.templatePaths
      (postNode.renderData (mkEnv none (fun _ m => m))) = none ∧
    postNode.Compile (mkEnv none (fun _ m => m)) = Except.error () := by
  exact ⟨rfl, rfl, rfl⟩

/-- C7: the file Compile writes is always public/[base directory]/
[name]/index.html, a function of BaseDirectory and Name alone, and two
documents with equal base directories but different names get different
output files. -/
theorem compile_output_paths (env : Env) (n n1 n2 : Node) (p out : Str)
    (hok : n.Compile env = Except.ok (some (p, out)))
    (hbd : n1.baseDirectory = n2.baseDirectory)
    (hname : n1.name ≠ n2.name) :
    p = n.outputPath ∧ n1.outputPath ≠ n2.outputPath := by
  constructor
  · unfold Node.Compile at hok
    cases hp : env.parseTemplates n.templatePaths with
    | false => rw [hp] at hok; simp at hok
    | true =>
      rw [hp] at hok
      cases hx : env.execute n.templatePaths (n.renderData env) with
      | none => rw [hx] at hok; simp at hok
      | some r =>
        rw [hx] at hok
        simp only [if_true] at hok
        cases hc : env.create ("public/".data ++ n.baseDirectory ++
            ('/' :: n.name) ++ "/index.html".data) with
        | false =>
          rw [hc] at hok; simp at hok
        | true =>
          rw [hc] at hok
          simp only [if_true, Except.ok.injEq, Option.some.injEq,
            Prod.mk.injEq] at hok
          exact hok.1.symm
  · intro heq
    unfold Node.outputPath at heq
    rw [hbd] at heq
    have h := append_middle_cancel ("public/".data ++ n2.baseDirectory)
      ('/' :: n1.name) ('/' :: n2.name) "/index.html".data heq
    injection h with h1 h2
    exact hname h2

/-- Witness for C7 on two concrete blog documents. -/
theorem compile_output_paths_witness :
    postNode.Compile (mkExecEnv "rendered".data) =
      Except.ok (some (postNode.outputPath, "rendered".data)) ∧
    postNode.outputPath ≠ helloNode.outputPath := by
  have h := compile_output_paths (mkExecEnv "rendered".data) postNode
    postNode helloNode postNode.outputPath "rendered".data rfl rfl
    (by decide)
  exact ⟨rfl, h.2⟩

/-- C8 is refuted by the code: after the walk visits the directory
content/blog while the site index has no entry for that path, the index
still has no entry for it — the occupancy test in the visitor is
inverted, so an absent entry is never created (and a present one would
be reset to empty). -/
theorem visitDir_creates_no_entry :
    emptyIndex "content/blog".data = none ∧
      visitDir emptyIndex "content/blog".data "content/blog".data = none :=
  ⟨rfl, rfl⟩

/-- C10: when the base filename of the path contains a dot, NewNode
yields a document whose name is the filename truncated at the last dot
(the dropped extension holds no further dot); when the base filename
contains no dot, the slice filename[0:-1] panics, i.e. NewNode yields
no document. -/
theorem newNode_name_truncation (path : Str) :
    ('.' ∈ filepathBase path →
      ∃ n ext, NewNode path = some n ∧
        n.name ++ ('.' :: ext) = filepathBase path ∧ '.' ∉ ext) ∧
    ('.' ∉ filepathBase path → NewNode path = none) := by
  constructor
  · intro hmem
    cases hld : lastDotIndex (filepathBase path) with
    | none =>
      exact absurd ((lastDotIndex_eq_none (filepathBase path)).1 hld)
        (not_not_intro hmem)
    | some i =>
      obtain ⟨hdec, hnd⟩ := lastDotIndex_decomp (filepathBase path) i hld
      have hnn : NewNode path = some
          { meta := none
            body := []
            raw := []
            path := path
            baseDirectory := joinWith ['/'] (splitSlash (filepathDir path)).tail
            name := (filepathBase path).take i
            templatePaths := [] } := by
        unfold NewNode
        dsimp only
        rw [hld]
      exact ⟨_, (filepathBase path).drop (i + 1), hnn, hdec, hnd⟩
  · intro hmem
    unfold NewNode
    dsimp only
    rw [(lastDotIndex_eq_none (filepathBase path)).2 hmem]

/-- Witness for C10 at a dotted and a dot-free filename. -/
theorem newNode_name_truncation_witness :
    ('.' ∈ filepathBase "content/blog/post.md".data ∧
      ∃ n ext, NewNode "content/blog/post.md".data = some n ∧
        n.name ++ ('.' :: ext) = filepathBase "content/blog/post.md".data ∧
        '.' ∉ ext) ∧
    ('.' ∉ filepathBase "content/blog/README".data ∧
      NewNode "content/blog/README".data = none) := by
  refine ⟨⟨by decide, ?_⟩, ⟨by decide, ?_⟩⟩
  · exact (newNode_name_truncation "content/blog/post.md".data).1 (by decide)
  · exact (newNode_name_truncation "content/blog/README".data).2 (by decide)

theorem hDS_cons_eq (c : Char) (l : Str) :
    hasDoubleSlash (c :: l) =
      ((c == '/' && l.headD ' ' == '/') || hasDoubleSlash l) := by
  cases l with
  | nil => simp [hasDoubleSlash]
  | cons d t => rfl

theorem hDS_tail {c : Char} {l : Str}
    (h : hasDoubleSlash (c :: l) = false) : hasDoubleSlash l = false := by
  rw [hDS_cons_eq] at h
  exact (Bool.or_eq_false_iff.1 h).2

theorem noslash_hDS : ∀ l : Str, '/' ∉ l → hasDoubleSlash l = false := by
  intro l
  induction l with
  | nil => intro h; rfl
  | cons c t ih =>
    intro h
    rw [hDS_cons_eq, Bool.or_eq_false_iff]
    refine ⟨?_, ih (fun hm => h (List.mem_cons_of_mem c hm))⟩
    have hc : ¬ c = '/' := fun hc => h (hc ▸ List.mem_cons_self c t)
    simp [beq_eq_false_iff_ne, Ne, hc]

theorem hDS_append_left : ∀ a b : Str,
    hasDoubleSlash (a ++ b) = false → hasDoubleSlash a = false := by
  intro a b
  induction a with
  | nil => intro h; rfl
  | cons c t ih =>
    intro h
    rw [List.cons_append, hDS_cons_eq, Bool.or_eq_false_iff] at h
    rw [hDS_cons_eq, Bool.or_eq_false_iff]
    refine ⟨?_, ih h.2⟩
    cases t with
    | nil => simp
    | cons d t2 => exact h.1

theorem hDS_take (l : Str) (k : Nat) (h : hasDoubleSlash l = false) :
    hasDoubleSlash (l.take k) = false := by
  have := List.take_append_drop k l
  exact hDS_append_left (l.take k) (l.drop k) (this.symm ▸ h)

theorem hDS_append_false : ∀ a b : Str, hasDoubleSlash a = false →
    hasDoubleSlash b = false →
    (a.getLast? = some '/' → b.headD ' ' ≠ '/') →
    hasDoubleSlash (a ++ b) = false := by
  intro a b
  induction a with
  | nil => intro _ hb _; exact hb
  | cons c t ih =>
    intro ha hb hlast
    rw [List.cons_append, hDS_cons_eq, Bool.or_eq_false_iff]
    cases t with
    | nil =>
      refine ⟨?_, hb⟩
      by_cases hc : c = '/'
      · have hne' : b.headD ' ' ≠ '/' := hlast (by rw [hc]; rfl)
        have hb' : (b.headD ' ' == '/') = false := beq_eq_false_iff_ne.2 hne'
        rw [List.nil_append, hb', Bool.and_false]
      · simp [hc]
    | cons d t2 =>
      rw [hDS_cons_eq, Bool.or_eq_false_iff] at ha
      refine ⟨?_, ih ha.2 hb (fun h => hlast (by
        rw [List.getLast?_cons_cons]; exact h))⟩
      simpa using ha.1

theorem hDS_adjacent : ∀ (l : Str) (i : Nat), i + 1 < l.length →
    l.getD i ' ' = '/' → l.getD (i + 1) ' ' = '/' →
    hasDoubleSlash l = true := by
  intro l
  induction l with
  | nil => intro i h; simp at h
  | cons c t ih =>
    intro i hlen h1 h2
    cases i with
    | zero =>
      cases t with
      | nil => simp at hlen
      | cons d t2 =>
        simp only [List.getD_cons_zero] at h1
        simp only [List.getD_cons_succ, List.getD_cons_zero] at h2
        rw [hDS_cons_eq, h1, h2]
        simp
    | succ j =>
      simp only [List.getD_cons_succ] at h1 h2
      rw [hDS_cons_eq, ih j (by simpa [Nat.succ_lt_succ_iff] using hlen) h1 h2]
      simp

theorem headD_append {a : Str} (b : Str) (x : Char) (ha : a ≠ []) :
    (a ++ b).headD x = a.headD x := by
  cases a with
  | nil => exact absurd rfl ha
  | cons c t => rfl

theorem headD_mem {l : Str} (x : Char) (hl : l ≠ []) : l.headD x ∈ l := by
  cases l with
  | nil => exact absurd rfl hl
  | cons c t => exact List.mem_cons_self c t

theorem getLast?_ne_slash_of_noslash {l : Str} (h : '/' ∉ l) :
    l.getLast? ≠ some '/' := by
  cases l with
  | nil => simp
  | cons c t =>
    rw [List.getLast?_eq_getLast (c :: t) (by simp)]
    intro hcontra
    exact h (Option.some.inj hcontra ▸ List.getLast_mem (by simp))

theorem splitSlash_ne_nil : ∀ s, splitSlash s ≠ [] := by
  intro s
  induction s using splitSlash.induct with
  | case1 => simp [splitSlash]
  | case2 rest ih => simp [splitSlash]
  | case3 c rest hne hnil ih => exact absurd hnil ih
  | case4 c rest hne h t heq ih => simp [splitSlash, hne, heq]

theorem splitSlash_comp_noslash : ∀ s : Str, ∀ c ∈ splitSlash s, '/' ∉ c := by
  intro s
  induction s using splitSlash.induct with
  | case1 =>
    intro c hc
    simp only [splitSlash, List.mem_singleton] at hc
    simp [hc]
  | case2 rest ih =>
    intro c hc
    rw [splitSlash] at hc
    rcases List.mem_cons.1 hc with h | h
    · simp [h]
    · exact ih c h
  | case3 c' rest hne hnil ih => exact absurd hnil (splitSlash_ne_nil rest)
  | case4 c' rest hne h t heq ih =>
    intro c hc
    have hrw : splitSlash (c' :: rest) = (c' :: h) :: t := by
      simp [splitSlash, hne, heq]
    rw [hrw] at hc
    rcases List.mem_cons.1 hc with hm | hm
    · subst hm
      intro hmem
      rcases List.mem_cons.1 hmem with hh | hh
      · exact hne hh.symm
      · exact ih h (by rw [heq]; exact List.mem_cons_self h t) hh
    · exact ih c (by rw [heq]; exact List.mem_cons_of_mem h hm)

theorem takeWhile_all (p : Char → Bool) : ∀ l : Str,
    (∀ c ∈ l, p c = true) → l.takeWhile p = l := by
  intro l
  induction l with
  | nil => intro _; rfl
  | cons c t ih =>
    intro h
    rw [List.takeWhile_cons, h c (List.mem_cons_self c t),
        ih (fun d hd => h d (List.mem_cons_of_mem c hd))]
    simp

theorem dropWhile_all_neg (p : Char → Bool) (l : Str)
    (h : ∀ c ∈ l, p c = false) : l.dropWhile p = l := by
  cases l with
  | nil => rfl
  | cons c t =>
    rw [List.dropWhile_cons, h c (List.mem_cons_self c t)]
    simp

theorem getLast?_cons_of_ne (x : Char) (l : Str) (h : l ≠ []) :
    (x :: l).getLast? = l.getLast? := by
  cases l with
  | nil => exact absurd rfl h
  | cons y t => exact List.getLast?_cons_cons

/-- Components of a separator split of a clean string: every component
after the first is non-empty when the string has no consecutive
separators and no trailing separator, and every component including the
first is non-empty when it additionally is non-empty and has no leading
separator. -/
theorem splitSlash_parts_ne_nil : ∀ s : Str, hasDoubleSlash s = false →
    s.getLast? ≠ some '/' →
    (∀ c ∈ (splitSlash s).tail, c ≠ []) ∧
    (s ≠ [] → s.headD ' ' ≠ '/' → ∀ c ∈ splitSlash s, c ≠ []) := by
  intro s
  induction s with
  | nil =>
    intro _ _
    constructor
    · intro c hc
      simp [splitSlash] at hc
    · intro hne _
      exact absurd rfl hne
  | cons a rest ih =>
    intro hds hlast
    by_cases ha : a = '/'
    · subst ha
      have hrw : splitSlash ('/' :: rest) = [] :: splitSlash rest := rfl
      have hrne : rest ≠ [] := by
        intro h0
        subst h0
        exact hlast rfl
      have hdr : hasDoubleSlash rest = false := hDS_tail hds
      have hlr : rest.getLast? ≠ some '/' := by
        rwa [getLast?_cons_of_ne '/' rest hrne] at hlast
      have hhr : rest.headD ' ' ≠ '/' := by
        rw [hDS_cons_eq, Bool.or_eq_false_iff] at hds
        intro hcontra
        rw [hcontra] at hds
        simp at hds
      constructor
      · intro c hc
        rw [hrw] at hc
        exact (ih hdr hlr).2 hrne hhr c (by simpa using hc)
      · intro _ hhead
        exact absurd rfl hhead
    · obtain ⟨h, t, heq⟩ : ∃ h t, splitSlash rest = h :: t := by
        cases hsp : splitSlash rest with
        | nil => exact absurd hsp (splitSlash_ne_nil rest)
        | cons h t => exact ⟨h, t, rfl⟩
      have hrw : splitSlash (a :: rest) = (a :: h) :: t := by
        simp [splitSlash, ha, heq]
      have htail : ∀ c ∈ t, c ≠ [] := by
        by_cases hrne : rest = []
        · subst hrne
          simp [splitSlash] at heq
          intro c hc
          rw [heq.2] at hc
          simp at hc
        · intro c hc
          have hdr : hasDoubleSlash rest = false := hDS_tail hds
          have hlr : rest.getLast? ≠ some '/' := by
            rwa [getLast?_cons_of_ne a rest hrne] at hlast
          have htl := (ih hdr hlr).1
          rw [heq] at htl
          exact htl c (by simpa using hc)
      constructor
      · intro c hc
        rw [hrw] at hc
        exact htail c (by simpa using hc)
      · intro _ _ c hc
        rw [hrw] at hc
        rcases List.mem_cons.1 hc with hm | hm
        · rw [hm]; simp
        · exact htail c hm

/-- Joining non-empty separator-free components with the separator gives
a string without consecutive separators and without a leading or
trailing separator. -/
theorem joinWith_wf : ∀ comps : List Str,
    (∀ c ∈ comps, c ≠ [] ∧ '/' ∉ c) →
    hasDoubleSlash (joinWith ['/'] comps) = false ∧
    (joinWith ['/'] comps).headD ' ' ≠ '/' ∧
    (joinWith ['/'] comps).getLast? ≠ some '/' := by
  intro comps
  induction comps with
  | nil =>
    intro _
    refine ⟨rfl, by simp [joinWith], by simp [joinWith]⟩
  | cons a rest ih =>
    intro hall
    obtain ⟨hane, hans⟩ := hall a (List.mem_cons_self a rest)
    cases rest with
    | nil =>
      refine ⟨noslash_hDS a hans, ?_, getLast?_ne_slash_of_noslash hans⟩
      intro hcontra
      exact hans (hcontra ▸ headD_mem ' ' hane)
    | cons b t =>
      obtain ⟨ihds, ihhd, ihlast⟩ :=
        ih (fun c hc => hall c (List.mem_cons_of_mem a hc))
      have hJne : joinWith ['/'] (b :: t) ≠ [] := by
        obtain ⟨hbne, _⟩ := hall b (by simp)
        cases t with
        | nil => exact hbne
        | cons d t2 =>
          rw [joinWith_cons _ _ _ (by simp)]
          simp
      rw [joinWith_cons _ _ _ (by simp)]
      have hassoc : a ++ ['/'] ++ joinWith ['/'] (b :: t) =
          a ++ ('/' :: joinWith ['/'] (b :: t)) := by simp
      rw [hassoc]
      have hinner : hasDoubleSlash ('/' :: joinWith ['/'] (b :: t)) = false := by
        rw [hDS_cons_eq, Bool.or_eq_false_iff]
        refine ⟨?_, ihds⟩
        rw [beq_eq_false_iff_ne.2 ihhd]
        simp
      refine ⟨?_, ?_, ?_⟩
      · exact hDS_append_false a _ (noslash_hDS a hans) hinner
          (fun hcontra => absurd hcontra (getLast?_ne_slash_of_noslash hans))
      · rw [headD_append _ ' ' hane]
        intro hcontra
        exact hans (hcontra ▸ headD_mem ' ' hane)
      · rw [List.getLast?_append_of_ne_nil a (by simp),
            getLast?_cons_of_ne '/' _ hJne]
        exact ihlast

theorem filepathBase_cases (p : Str) :
    filepathBase p = ['/'] ∨ '/' ∉ filepathBase p := by
  unfold filepathBase
  by_cases hp : p = []
  · rw [if_pos hp]
    right
    simp
  · rw [if_neg hp]
    dsimp only
    set p2 := (((p.reverse.dropWhile (fun c => c == '/')).reverse).reverse.takeWhile
      (fun c => c != '/')).reverse with hp2
    by_cases h2 : p2 = []
    · rw [if_pos h2]
      left
      rfl
    · rw [if_neg h2]
      right
      intro hmem
      rw [hp2, List.mem_reverse] at hmem
      have := List.mem_takeWhile_imp hmem
      simp at this

theorem filepathBase_of_slashfree (s : Str) (hne : s ≠ []) (hns : '/' ∉ s) :
    filepathBase s = s := by
  unfold filepathBase
  rw [if_neg hne]
  dsimp only
  have hdw : s.reverse.dropWhile (fun c => c == '/') = s.reverse := by
    apply dropWhile_all_neg
    intro c hc
    rw [List.mem_reverse] at hc
    exact beq_eq_false_iff_ne.2 (fun h => hns (h ▸ hc))
  have htw : s.reverse.takeWhile (fun c => c != '/') = s.reverse := by
    apply takeWhile_all
    intro c hc
    rw [List.mem_reverse] at hc
    have hcne : ¬ c = '/' := fun h => hns (h ▸ hc)
    simpa using hcne
  rw [hdw, List.reverse_reverse, htw, List.reverse_reverse, if_neg hne]

theorem filepathBase_slashfree (s : Str) (hns : '/' ∉ s) :
    filepathBase s ≠ [] ∧ '/' ∉ filepathBase s := by
  by_cases hne : s = []
  · subst hne
    refine ⟨by simp [filepathBase], by simp [filepathBase]⟩
  · rw [filepathBase_of_slashfree s hne hns]
    exact ⟨hne, hns⟩

theorem headD_take (l : Str) (k : Nat) (d : Char) (hk : 1 ≤ k)
    (hl : l ≠ []) : (l.take k).headD d = l.headD d := by
  cases l with
  | nil => exact absurd rfl hl
  | cons c t =>
    cases k with
    | zero => omega
    | succ j => rfl

theorem getLast?_take_succ (l : Str) (j : Nat) (h : j < l.length) :
    (l.take (j + 1)).getLast? = some (l.getD j ' ') := by
  rw [List.take_succ, List.getElem?_eq_getElem h, List.getD_eq_getElem l ' ' h]
  exact List.getLast?_concat _

theorem cleanBack_spec (out : Str) (dotdot : Nat) : ∀ w : Nat, dotdot ≤ w →
    dotdot ≤ cleanBack out dotdot w ∧ cleanBack out dotdot w ≤ w ∧
    (cleanBack out dotdot w = dotdot ∨
      out.getD (cleanBack out dotdot w) ' ' = '/') := by
  intro w
  induction w with
  | zero =>
    intro h
    rw [cleanBack]
    exact ⟨h, Nat.le_refl 0, Or.inl (Nat.le_zero.1 h).symm⟩
  | succ v ih =>
    intro h
    rw [cleanBack]
    by_cases hc : dotdot < v + 1 ∧ ¬ out.getD (v + 1) ' ' = '/'
    · rw [if_pos hc]
      have hdv : dotdot ≤ v := Nat.lt_succ_iff.1 hc.1
      obtain ⟨a, b, c⟩ := ih hdv
      exact ⟨a, Nat.le_succ_of_le b, c⟩
    · rw [if_neg hc]
      refine ⟨h, Nat.le_refl _, ?_⟩
      rcases Decidable.not_and_iff_or_not.1 hc with h1 | h2
      · exact Or.inl (Nat.le_antisymm (Nat.not_lt.1 h1) h)
      · exact Or.inr (Decidable.not_not.1 h2)

/-- Popping the last element of the buffer on a ".." preserves the Clean
loop invariant (with the same watermark). -/
theorem cleanInv_pop {rooted : Bool} {out : Str} {dotdot : Nat}
    (inv : CleanInv rooted out dotdot) (hlt : dotdot < out.length) :
    CleanInv rooted (out.take (cleanBack out dotdot (out.length - 1)))
      dotdot := by
  have hone : 1 ≤ out.length := Nat.lt_of_le_of_lt (Nat.zero_le _) hlt
  have hdw0 : dotdot ≤ out.length - 1 := by omega
  obtain ⟨hw1, hw2, hw3⟩ := cleanBack_spec out dotdot (out.length - 1) hdw0
  set w := cleanBack out dotdot (out.length - 1) with hw
  have hwlen : w ≤ out.length := Nat.le_trans hw2 (Nat.sub_le _ _)
  have hlen : (out.take w).length = w := by
    rw [List.length_take]
    omega
  have houtne : out ≠ [] := by
    intro h0
    rw [h0] at hone
    simp at hone
  refine ⟨?_, ?_, ?_, ?_, ?_⟩
  · exact hDS_take out w inv.nds
  · omega
  · cases rooted with
    | true =>
      obtain ⟨hh, hd1, hl1⟩ := inv.hd
      have hw1' : 1 ≤ w := by omega
      exact ⟨by rw [headD_take out w ' ' hw1' houtne]; exact hh, hd1, by omega⟩
    | false =>
      by_cases hw0 : w = 0
      · left
        rw [hw0]
        rfl
      · right
        rw [headD_take out w ' ' (by omega) houtne]
        rcases inv.hd with h0 | hns
        · exact absurd h0 houtne
        · exact hns
  · intro hcontra
    rcases hw3 with hdd | hsl
    · cases rooted with
      | true =>
        obtain ⟨hh, hd1, hl1⟩ := inv.hd
        rw [hdd, hd1] at hcontra ⊢
        constructor
        · rfl
        · cases out with
          | nil => exact absurd rfl houtne
          | cons c t =>
            have : c = '/' := hh
            rw [List.take_one]
            simp [this]
      | false =>
        by_cases hz : dotdot = 0
        · rw [hdd, hz] at hcontra
          simp at hcontra
        · obtain ⟨h2, hdot⟩ := inv.dd2 rfl (Nat.pos_of_ne_zero hz)
          rw [hdd] at hcontra
          rw [hcontra] at hdot
          simp at hdot
    · exfalso
      have hwpos : 1 ≤ w := by
        rcases Nat.eq_zero_or_pos w with h0 | h1
        · rw [h0] at hcontra
          simp at hcontra
        · exact h1
      have hwlt : w < out.length := by omega
      have hprev : out.getD (w - 1) ' ' = '/' := by
        have := getLast?_take_succ out (w - 1) (by omega)
        rw [show w - 1 + 1 = w from by omega] at this
        rw [this] at hcontra
        exact Option.some.inj hcontra
      have : hasDoubleSlash out = true := by
        apply hDS_adjacent out (w - 1) (by omega) hprev
        rw [show w - 1 + 1 = w from by omega]
        exact hsl
      rw [inv.nds] at this
      exact Bool.noConfusion this
  · intro hr hpos
    obtain ⟨h2, hdot⟩ := inv.dd2 hr hpos
    refine ⟨h2, ?_⟩
    rw [List.take_take, Nat.min_eq_left hw1]
    exact hdot

/-- Appending a separator and a separator-free element to a non-empty
buffer not ending in a separator preserves the Clean loop invariant. -/
theorem cleanInv_append_sep {rooted : Bool} {out : Str} {dotdot : Nat}
    (inv : CleanInv rooted out dotdot) (hne : out ≠ [])
    (hlast : out.getLast? ≠ some '/') (elem : Str) (hene : elem ≠ [])
    (hens : '/' ∉ elem) :
    CleanInv rooted ((out ++ ['/']) ++ elem) dotdot := by
  have hassoc : (out ++ ['/']) ++ elem = out ++ ('/' :: elem) := by simp
  rw [hassoc]
  have hinner : hasDoubleSlash ('/' :: elem) = false := by
    rw [hDS_cons_eq, Bool.or_eq_false_iff]
    constructor
    · have hh : elem.headD ' ' ≠ '/' := fun h => hens (h ▸ headD_mem ' ' hene)
      rw [beq_eq_false_iff_ne.2 hh]
      simp
    · exact noslash_hDS elem hens
  refine ⟨?_, ?_, ?_, ?_, ?_⟩
  · exact hDS_append_false out _ inv.nds hinner (fun h => absurd h hlast)
  · rw [List.length_append]
    exact Nat.le_trans inv.dle (Nat.le_add_right _ _)
  · cases rooted with
    | true =>
      obtain ⟨hh, h1, hl1⟩ := inv.hd
      refine ⟨by rw [headD_append _ ' ' hne]; exact hh, h1, ?_⟩
      rw [List.length_append]
      omega
    | false =>
      right
      rw [headD_append _ ' ' hne]
      rcases inv.hd with h0 | hns
      · exact absurd h0 hne
      · exact hns
  · intro hcontra
    rw [List.getLast?_append_of_ne_nil out (by simp),
        getLast?_cons_of_ne '/' elem hene] at hcontra
    exact absurd hcontra (getLast?_ne_slash_of_noslash hens)
  · intro hr hpos
    obtain ⟨h2, hdot⟩ := inv.dd2 hr hpos
    refine ⟨h2, ?_⟩
    rw [List.take_append_of_le_length inv.dle]
    exact hdot

/-- Appending a separator-free element to an empty unrooted buffer
preserves the Clean loop invariant. -/
theorem cleanInv_append_empty {dotdot : Nat}
    (inv : CleanInv false [] dotdot) (elem : Str) (hene : elem ≠ [])
    (hens : '/' ∉ elem) : CleanInv false elem dotdot := by
  have hdz : dotdot = 0 := Nat.le_zero.1 inv.dle
  refine ⟨noslash_hDS elem hens, by omega,
    Or.inr (fun h => hens (h ▸ headD_mem ' ' hene)), ?_, ?_⟩
  · intro hc
    exact absurd hc (getLast?_ne_slash_of_noslash hens)
  · intro _ hpos
    rw [hdz] at hpos
    exact absurd hpos (by simp)

/-- Appending a separator-free element to the rooted buffer "/"
preserves the Clean loop invariant. -/
theorem cleanInv_append_root {dotdot : Nat}
    (inv : CleanInv true ['/'] dotdot) (elem : Str) (hene : elem ≠ [])
    (hens : '/' ∉ elem) : CleanInv true ('/' :: elem) dotdot := by
  obtain ⟨hh, h1, hl1⟩ := inv.hd
  refine ⟨?_, ?_, ?_, ?_, ?_⟩
  · rw [hDS_cons_eq, Bool.or_eq_false_iff]
    constructor
    · have hhd : elem.headD ' ' ≠ '/' := fun h => hens (h ▸ headD_mem ' ' hene)
      rw [beq_eq_false_iff_ne.2 hhd]
      simp
    · exact noslash_hDS elem hens
  · rw [h1]
    simp [Nat.succ_le_succ]
  · exact ⟨rfl, h1, by simp⟩
  · intro hc
    rw [getLast?_cons_of_ne '/' elem hene] at hc
    exact absurd hc (getLast?_ne_slash_of_noslash hens)
  · intro hr
    exact absurd hr (by simp)

/-- Appending a dot-dot element (with its separator when the unrooted
buffer is non-empty) and moving the watermark to the new end preserves
the Clean loop invariant. -/
theorem cleanInv_dotdots {out : Str} {dotdot : Nat}
    (inv : CleanInv false out dotdot) :
    CleanInv false
      ((if 0 < out.length then out ++ ['/'] else out) ++ ['.', '.'])
      ((if 0 < out.length then out ++ ['/'] else out) ++ ['.', '.']).length := by
  by_cases hlen : 0 < out.length
  · rw [if_pos hlen]
    have hne : out ≠ [] := by
      intro h
      rw [h] at hlen
      simp at hlen
    have hlast : out.getLast? ≠ some '/' := by
      intro hc
      exact Bool.noConfusion (inv.lst hc).1
    have hassoc : (out ++ ['/']) ++ ['.', '.'] = out ++ ('/' :: ['.', '.']) := by
      simp
    rw [hassoc]
    refine ⟨?_, Nat.le_refl _, ?_, ?_, ?_⟩
    · exact hDS_append_false out _ inv.nds (by decide)
        (fun h => absurd h hlast)
    · right
      rw [headD_append _ ' ' hne]
      rcases inv.hd with h0 | hns
      · exact absurd h0 hne
      · exact hns
    · intro hcontra
      rw [List.getLast?_append_of_ne_nil out (by simp)] at hcontra
      simp at hcontra
    · intro _ _
      constructor
      · rw [List.length_append]
        simp
      · rw [List.take_length, List.getLast?_append_of_ne_nil out (by simp)]
        rfl
  · rw [if_neg hlen]
    have h0 : out = [] := List.length_eq_zero.1 (by omega)
    rw [h0]
    exact ⟨by decide, by decide, by decide, by decide, by decide⟩

/-- Every state the Clean loop can reach from an invariant-satisfying
state satisfies the invariant for some watermark, whatever the fuel. -/
theorem cleanLoop_inv (rooted : Bool) : ∀ (fuel : Nat) (rem out : Str)
    (dotdot : Nat), CleanInv rooted out dotdot →
    ∃ dd', CleanInv rooted (cleanLoop rooted fuel rem out dotdot) dd' := by
  intro fuel
  induction fuel with
  | zero =>
    intro rem out dotdot inv
    exact ⟨dotdot, inv⟩
  | succ fuel ih =>
    intro rem out dotdot inv
    cases rem with
    | nil => exact ⟨dotdot, inv⟩
    | cons c rest =>
      rw [cleanLoop]
      by_cases h1 : c = '/'
      · rw [if_pos h1]
        exact ih rest out dotdot inv
      · rw [if_neg h1]
        by_cases h2 : c = '.' ∧ (rest = [] ∨ rest.headD ' ' = '/')
        · rw [if_pos h2]
          exact ih rest out dotdot inv
        · rw [if_neg h2]
          by_cases h3 : c = '.' ∧ rest.headD ' ' = '.' ∧
              (rest.tail = [] ∨ rest.tail.headD ' ' = '/')
          · rw [if_pos h3]
            by_cases h4 : dotdot < out.length
            · rw [if_pos h4]
              exact ih rest.tail _ dotdot (cleanInv_pop inv h4)
            · rw [if_neg h4]
              by_cases h5 : rooted = false
              · rw [if_pos h5]
                subst h5
                dsimp only
                exact ih rest.tail _ _ (cleanInv_dotdots inv)
              · rw [if_neg h5]
                exact ih rest.tail out dotdot inv
          · rw [if_neg h3]
            dsimp only
            have hene : (c :: rest).takeWhile (fun ch => ch != '/') ≠ [] := by
              rw [List.takeWhile_cons]
              have hcb : (c != '/') = true := by simpa using h1
              rw [hcb]
              simp
            have hens : '/' ∉ (c :: rest).takeWhile (fun ch => ch != '/') := by
              intro hm
              have := List.mem_takeWhile_imp hm
              simp at this
            by_cases hsep : (rooted = true ∧ ¬ out.length = 1) ∨
                (rooted = false ∧ ¬ out.length = 0)
            · rw [if_pos hsep]
              have hne : out ≠ [] := by
                intro h0
                rcases hsep with ⟨hr, _⟩ | ⟨hr, hl⟩
                · have hd := inv.hd
                  rw [hr] at hd
                  simp only [if_true] at hd
                  obtain ⟨_, _, hge⟩ := hd
                  rw [h0] at hge
                  simp at hge
                · exact hl (by rw [h0]; rfl)
              have hlast : out.getLast? ≠ some '/' := by
                intro hc
                obtain ⟨hr, ho⟩ := inv.lst hc
                rcases hsep with ⟨_, hl⟩ | ⟨hr2, _⟩
                · exact hl (by rw [ho]; rfl)
                · rw [hr] at hr2
                  exact Bool.noConfusion hr2
              exact ih _ _ dotdot (cleanInv_append_sep inv hne hlast _ hene hens)
            · rw [if_neg hsep]
              cases hro : rooted with
              | true =>
                have hd := inv.hd
                rw [hro] at hd
                simp only [if_true] at hd
                obtain ⟨hh, hd1, hl1⟩ := hd
                have hlen1 : out.length = 1 := by
                  obtain ⟨hA, _⟩ := not_or.1 hsep
                  rcases Decidable.not_and_iff_or_not.1 hA with hr2 | hl2
                  · exact absurd hro hr2
                  · exact Decidable.not_not.1 hl2
                have hout : out = ['/'] := by
                  cases out with
                  | nil => simp at hlen1
                  | cons x t =>
                    cases t with
                    | nil =>
                      have : x = '/' := hh
                      rw [this]
                    | cons y t2 => simp at hlen1
                have hcons : out ++ (c :: rest).takeWhile (fun ch => ch != '/') =
                    '/' :: (c :: rest).takeWhile (fun ch => ch != '/') := by
                  rw [hout]
                  rfl
                rw [hcons]
                subst hro
                exact ih _ _ dotdot
                  (cleanInv_append_root (hout ▸ inv) _ hene hens)
              | false =>
                have hlen0 : out.length = 0 := by
                  obtain ⟨_, hB⟩ := not_or.1 hsep
                  rcases Decidable.not_and_iff_or_not.1 hB with hr2 | hl2
                  · exact absurd hro hr2
                  · exact Decidable.not_not.1 hl2
                have hout : out = [] := List.length_eq_zero.1 hlen0
                rw [hout, List.nil_append]
                subst hro
                exact ih _ _ dotdot
                  (cleanInv_append_empty (hout ▸ inv) _ hene hens)

/-- Clean output is well formed: no consecutive separators, and it ends
in a separator only when it is exactly "/". -/
theorem pathClean_wf (p : Str) :
    hasDoubleSlash (pathClean p) = false ∧
    ((pathClean p).getLast? = some '/' → pathClean p = ['/']) := by
  unfold pathClean
  by_cases hp : p = []
  · rw [if_pos hp]
    exact ⟨by decide, by decide⟩
  · rw [if_neg hp]
    by_cases hr : p.headD ' ' = '/'
    · rw [if_pos hr]
      dsimp only
      have hinit : CleanInv true ['/'] 1 :=
        ⟨by decide, by decide, ⟨rfl, rfl, by decide⟩,
         fun _ => ⟨rfl, rfl⟩, fun h => absurd h (by simp)⟩
      obtain ⟨dd', inv⟩ := cleanLoop_inv true p.length p.tail ['/'] 1 hinit
      by_cases h0 : (cleanLoop true p.length p.tail ['/'] 1).length = 0
      · rw [if_pos h0]
        exact ⟨by decide, by decide⟩
      · rw [if_neg h0]
        exact ⟨inv.nds, fun hc => (inv.lst hc).2⟩
    · rw [if_neg hr]
      dsimp only
      have hinit : CleanInv false [] 0 :=
        ⟨rfl, Nat.le_refl 0, Or.inl rfl, fun h => by simp at h,
         fun _ h => absurd h (by simp)⟩
      obtain ⟨dd', inv⟩ := cleanLoop_inv false p.length p [] 0 hinit
      by_cases h0 : (cleanLoop false p.length p [] 0).length = 0
      · rw [if_pos h0]
        exact ⟨by decide, by decide⟩
      · rw [if_neg h0]
        refine ⟨inv.nds, fun hc => ?_⟩
        exact absurd (inv.lst hc).1 (by simp)

/-- Directory cleaning is well formed as a path. -/
theorem filepathDir_wf (q : Str) :
    hasDoubleSlash (filepathDir q) = false ∧
    ((filepathDir q).getLast? = some '/' → filepathDir q = ['/']) :=
  pathClean_wf _

/-- The base directory NewNode derives is well formed: no consecutive
separators and no leading or trailing separator. -/
theorem newNode_bd_wf (q : Str) :
    hasDoubleSlash (joinWith ['/'] (splitSlash (filepathDir q)).tail) = false ∧
    (joinWith ['/'] (splitSlash (filepathDir q)).tail).headD ' ' ≠ '/' ∧
    (joinWith ['/'] (splitSlash (filepathDir q)).tail).getLast? ≠
      some '/' := by
  obtain ⟨hds, himp⟩ := filepathDir_wf q
  by_cases hslash : filepathDir q = ['/']
  · rw [hslash]
    exact ⟨by decide, by decide, by decide⟩
  · have hlastO : (filepathDir q).getLast? ≠ some '/' :=
      fun hc => hslash (himp hc)
    have htail := (splitSlash_parts_ne_nil (filepathDir q) hds hlastO).1
    apply joinWith_wf
    intro c hc
    exact ⟨htail c hc,
      splitSlash_comp_noslash (filepathDir q) c (List.mem_of_mem_tail hc)⟩

/-- C1 (amended): for every document NewNode builds whose base name is
non-empty, the permalink is "/" + name + "/" when the base directory is
empty and "/" + base directory + "/" + name + "/" otherwise; and for
every document NewNode builds, empty name included, the permalink never
contains two consecutive slashes. A document with an empty base name (a
filename whose only dot is its first character) is the single exception
to the formula: Permalink applies filepath.Base to the name, which turns
the empty name into ".", giving "/./" instead of "//". -/
theorem permalink_formula (path : Str) (n : Node)
    (hn : NewNode path = some n) :
    (n.name ≠ [] →
      (n.baseDirectory = [] → n.Permalink = '/' :: (n.name ++ ['/'])) ∧
      (n.baseDirectory ≠ [] →
        n.Permalink =
          '/' :: (n.baseDirectory ++ ('/' :: (n.name ++ ['/']))))) ∧
    hasDoubleSlash n.Permalink = false := by
  unfold NewNode at hn
  dsimp only at hn
  cases hld : lastDotIndex (filepathBase path) with
  | none =>
    rw [hld] at hn
    exact Option.noConfusion hn
  | some i =>
    rw [hld] at hn
    have hfields := Option.some.inj hn
    have hname : n.name = (filepathBase path).take i := by
      rw [← hfields]
    have hbd : n.baseDirectory =
        joinWith ['/'] (splitSlash (filepathDir path)).tail := by
      rw [← hfields]
    have hfp_noslash : '/' ∉ filepathBase path := by
      rcases filepathBase_cases path with hc | hc
      · rw [hc] at hld
        simp [lastDotIndex] at hld
      · exact hc
    have hname_noslash : '/' ∉ n.name := by
      rw [hname]
      intro hm
      exact hfp_noslash (List.take_subset i _ hm)
    obtain ⟨hbds, hbdh, hbdl⟩ := newNode_bd_wf path
    rw [← hbd] at hbds hbdh hbdl
    constructor
    · intro hne
      have hfb : filepathBase n.name = n.name :=
        filepathBase_of_slashfree n.name hne hname_noslash
      constructor
      · intro hbde
        unfold Node.Permalink
        rw [if_pos hbde, hfb]
      · intro hbdne
        unfold Node.Permalink
        rw [if_neg hbdne, hfb]
    · obtain ⟨hfne, hfns⟩ := filepathBase_slashfree n.name hname_noslash
      have hinner : hasDoubleSlash (filepathBase n.name ++ ['/']) = false :=
        hDS_append_false _ _ (noslash_hDS _ hfns) (by decide)
          (fun h => absurd h (getLast?_ne_slash_of_noslash hfns))
      have hinner_head : (filepathBase n.name ++ ['/']).headD ' ' ≠ '/' := by
        rw [headD_append _ ' ' hfne]
        exact fun h => hfns (h ▸ headD_mem ' ' hfne)
      have hmid : hasDoubleSlash
          ('/' :: (filepathBase n.name ++ ['/'])) = false := by
        rw [hDS_cons_eq, Bool.or_eq_false_iff]
        refine ⟨?_, hinner⟩
        rw [beq_eq_false_iff_ne.2 hinner_head]
        simp
      unfold Node.Permalink
      by_cases hbde : n.baseDirectory = []
      · rw [if_pos hbde]
        exact hmid
      · rw [if_neg hbde]
        have hfull : hasDoubleSlash (n.baseDirectory ++
            ('/' :: (filepathBase n.name ++ ['/']))) = false :=
          hDS_append_false _ _ hbds hmid (fun h => absurd h hbdl)
        rw [hDS_cons_eq, Bool.or_eq_false_iff]
        refine ⟨?_, hfull⟩
        rw [headD_append _ ' ' hbde, beq_eq_false_iff_ne.2 hbdh]
        simp

/-- Witness for C1's amended statement on the blog document
content/blog/hello.md, whose permalink is /blog/hello/. -/
theorem permalink_formula_witness :
    NewNode "content/blog/hello.md".data = some helloNode ∧
    helloNode.name ≠ [] ∧ helloNode.baseDirectory ≠ [] ∧
    helloNode.Permalink = "/blog/hello/".data ∧
    hasDoubleSlash helloNode.Permalink = false := by
  have hnn : NewNode "content/blog/hello.md".data = some helloNode := by
    decide
  have h := permalink_formula "content/blog/hello.md".data helloNode hnn
  refine ⟨hnn, by decide, by decide, ?_, h.2⟩
  have hf := (h.1 (by decide)).2 (by decide)
  rw [hf]
  decide

/-- C1 (counterexample): the document NewNode builds from
content/.gitignore has empty base directory and empty base name, and its
permalink is "/./" — not "/" + name + "/" (which would be the
double-slash "//", itself contradicting the claim's no-double-slash
conjunct), so the claimed formula fails for a document with an empty
base name. -/
theorem permalink_empty_name_counterexample :
    NewNode "content/.gitignore".data = some gitignoreNode ∧
    gitignoreNode.baseDirectory = [] ∧ gitignoreNode.name = [] ∧
    gitignoreNode.Permalink = "/./".data ∧
    gitignoreNode.Permalink ≠ '/' :: (gitignoreNode.name ++ ['/']) := by
  exact ⟨by decide, rfl, rfl, by decide, by decide⟩

end Baja
